import Mathlib

/-!
Verification of the OpenAI_TTS_GUI repository's core pipeline, shallowly
embedded in Lean 4.

The repository contains two parallel implementations of most operations:
the legacy single-file `OpenAI_TTS.py` and the refactored `tts.py` /
`utils.py` pair.  Definitions below are translated from the Python source;
names follow the source where Lean allows it, with a `Legacy` suffix for
the `OpenAI_TTS.py` variants.

Strings are modelled as `List Char`.  Python's `str.rfind` is modelled by
`rfindChar` (last index of a character, `none` for "not found" in place of
`-1`); `str.lstrip` by `List.dropWhile isPySpace` over the ASCII whitespace
class.  Monetary amounts are modelled in integer thousandths of a dollar
(the source computes `blocks * Decimal("0.015")`, an exact multiple of
0.001, so `round(x, 3)` is the identity on every reachable value and the
thousandths model is exact).  Wall-clock sleeping is modelled by
accumulating the slept seconds.
-/

/-- Python `str.isspace` / `lstrip` whitespace class, restricted to the
ASCII whitespace characters (space, tab, newline, carriage return,
vertical tab, form feed). -/
def isPySpace (c : Char) : Bool :=
  c = ' ' ∨ c = '\t' ∨ c = '\n' ∨ c = '\r' ∨ c = '\x0b' ∨ c = '\x0c'

/-- Python `text.rfind(c)`: index of the last occurrence of `c` in `l`,
`none` when absent (the source's `-1`). -/
def rfindChar (l : List Char) (c : Char) : Option Nat :=
  match l with
  | [] => none
  | x :: xs =>
    match rfindChar xs c with
    | some i => some (i + 1)
    | none => if x = c then some 0 else none

/-- The split index chosen by one iteration of the loop of
`utils.py::split_text` (lines 39-48): the first sentence punctuation mark
(in the fixed order `.`, `?`, `!`, `;`) present in the window
`text[:chunk_size]` gives `last_index + 1` (the inner `for` loop `break`s
at the first match); otherwise the last space gives its own index;
otherwise a hard cut at `chunk_size`. -/
def splitIndexOf (window : List Char) (chunkSize : Nat) : Nat :=
  match rfindChar window '.' with
  | some i => i + 1
  | none =>
    match rfindChar window '?' with
    | some i => i + 1
    | none =>
      match rfindChar window '!' with
      | some i => i + 1
      | none =>
        match rfindChar window ';' with
        | some i => i + 1
        | none =>
          match rfindChar window ' ' with
          | some i => i
          | none => chunkSize

/-- The `while text:` loop of `utils.py::split_text` (lines 35-50),
written with explicit fuel; `none` means the fuel ran out.  One iteration:
if the remaining text fits in `chunkSize` it becomes the final chunk;
otherwise the prefix up to the chosen split index is emitted and the
remainder is `lstrip`ped. -/
def splitTextLoop : Nat → List Char → Nat → Option (List (List Char))
  | 0, _, _ => none
  | _ + 1, [], _ => some []
  | fuel + 1, text@(_ :: _), chunkSize =>
    if text.length ≤ chunkSize then
      some [text]
    else
      match splitTextLoop fuel
          ((text.drop (splitIndexOf (text.take chunkSize) chunkSize)).dropWhile
            isPySpace) chunkSize with
      | some rest => some (text.take (splitIndexOf (text.take chunkSize) chunkSize) :: rest)
      | none => none

/-- `utils.py::split_text` (lines 23-51).  The fuel `text.length + 1`
suffices whenever `chunkSize ≥ 1` (proved below); when the loop would not
terminate (`chunkSize = 0` on pathological input) the model returns `[]`. -/
def split_text (text : List Char) (chunkSize : Nat) : List (List Char) :=
  if text.length ≤ chunkSize then [text]
  else (splitTextLoop (text.length + 1) text chunkSize).getD []

example : split_text "ab.  cd".toList 4 = ["ab.".toList, "cd".toList] := by decide

example : split_text "hello world this".toList 6 =
    ["hello".toList, "world".toList, "this".toList] := by decide

/-! ### Basic lemmas about `rfindChar` -/

lemma rfindChar_lt_length {l : List Char} {c : Char} {i : Nat}
    (h : rfindChar l c = some i) : i < l.length := by
  induction l generalizing i with
  | nil => simp [rfindChar] at h
  | cons x xs ih =>
    rw [rfindChar] at h
    cases hx : rfindChar xs c with
    | some j =>
      rw [hx] at h
      cases h
      exact Nat.succ_lt_succ (ih hx)
    | none =>
      rw [hx] at h
      by_cases hxc : x = c
      · simp only [hxc, if_pos rfl] at h
        cases h
        simp
      · simp [hxc] at h

lemma rfindChar_zero_head {x : Char} {xs : List Char} {c : Char}
    (h : rfindChar (x :: xs) c = some 0) : x = c := by
  rw [rfindChar] at h
  cases hx : rfindChar xs c with
  | some j => rw [hx] at h; cases h
  | none =>
    rw [hx] at h
    by_cases hxc : x = c
    · exact hxc
    · simp [hxc] at h

lemma rfindChar_append (l₁ l₂ : List Char) (c : Char) :
    rfindChar (l₁ ++ l₂) c =
      match rfindChar l₂ c with
      | some i => some (l₁.length + i)
      | none => rfindChar l₁ c := by
  induction l₁ with
  | nil =>
    cases h : rfindChar l₂ c <;> simp [h, rfindChar]
  | cons x xs ih =>
    rw [List.cons_append, rfindChar, ih]
    cases h : rfindChar l₂ c with
    | some i =>
      simp only [List.length_cons]
      congr 1
      omega
    | none =>
      rw [rfindChar]

lemma rfindChar_replicate_ne {a c : Char} (h : c ≠ a) (n : Nat) :
    rfindChar (List.replicate n a) c = none := by
  induction n with
  | zero => rfl
  | succ m ih =>
    rw [List.replicate_succ, rfindChar, ih]
    simp [Ne.symm h]

/-! ### The split index: bounds and positivity -/

lemma splitIndexOf_le {window : List Char} {chunkSize : Nat}
    (hw : window.length ≤ chunkSize) : splitIndexOf window chunkSize ≤ chunkSize := by
  unfold splitIndexOf
  cases h1 : rfindChar window '.' with
  | some i => exact Nat.succ_le_of_lt (Nat.lt_of_lt_of_le (rfindChar_lt_length h1) hw)
  | none =>
  cases h2 : rfindChar window '?' with
  | some i => exact Nat.succ_le_of_lt (Nat.lt_of_lt_of_le (rfindChar_lt_length h2) hw)
  | none =>
  cases h3 : rfindChar window '!' with
  | some i => exact Nat.succ_le_of_lt (Nat.lt_of_lt_of_le (rfindChar_lt_length h3) hw)
  | none =>
  cases h4 : rfindChar window ';' with
  | some i => exact Nat.succ_le_of_lt (Nat.lt_of_lt_of_le (rfindChar_lt_length h4) hw)
  | none =>
  cases h5 : rfindChar window ' ' with
  | some i => exact Nat.le_of_lt (Nat.lt_of_lt_of_le (rfindChar_lt_length h5) hw)
  | none => exact Nat.le_refl _

/-- Either the chosen split index is positive, or it is `0` and the window
(hence the text) starts with a space — the only way `rfind(" ")` can
return `0`. -/
lemma splitIndexOf_pos_or_space (window : List Char) {chunkSize : Nat}
    (hcs : 1 ≤ chunkSize) :
    1 ≤ splitIndexOf window chunkSize ∨
      (splitIndexOf window chunkSize = 0 ∧ ∃ ws, window = ' ' :: ws) := by
  unfold splitIndexOf
  cases h1 : rfindChar window '.' with
  | some i => exact Or.inl (Nat.succ_le_succ (Nat.zero_le _))
  | none =>
  cases h2 : rfindChar window '?' with
  | some i => exact Or.inl (Nat.succ_le_succ (Nat.zero_le _))
  | none =>
  cases h3 : rfindChar window '!' with
  | some i => exact Or.inl (Nat.succ_le_succ (Nat.zero_le _))
  | none =>
  cases h4 : rfindChar window ';' with
  | some i => exact Or.inl (Nat.succ_le_succ (Nat.zero_le _))
  | none =>
  cases h5 : rfindChar window ' ' with
  | some i =>
    cases i with
    | zero =>
      refine Or.inr ⟨rfl, ?_⟩
      cases window with
      | nil => simp [rfindChar] at h5
      | cons x xs => exact ⟨xs, by rw [rfindChar_zero_head h5]⟩
    | succ j => exact Or.inl (Nat.succ_le_succ (Nat.zero_le _))
  | none => exact Or.inl hcs

/-! ### Termination of the splitting loop -/

/-- One loop iteration strictly shrinks the remaining text (for
`chunkSize ≥ 1`): either the split index is positive, or it is `0` and the
remainder starts with a space that `lstrip` removes. -/
lemma remainder_length_lt {text : List Char} {chunkSize : Nat}
    (hcs : 1 ≤ chunkSize) (hlen : chunkSize < text.length) :
    ((text.drop (splitIndexOf (text.take chunkSize) chunkSize)).dropWhile
        isPySpace).length < text.length := by
  rcases splitIndexOf_pos_or_space (text.take chunkSize) hcs with hpos | ⟨hzero, ws, hws⟩
  · calc ((text.drop (splitIndexOf (text.take chunkSize) chunkSize)).dropWhile
          isPySpace).length
        ≤ (text.drop (splitIndexOf (text.take chunkSize) chunkSize)).length :=
          (List.dropWhile_sublist _).length_le
      _ = text.length - splitIndexOf (text.take chunkSize) chunkSize :=
          List.length_drop _ _
      _ < text.length := by omega
  · rw [hzero, List.drop_zero]
    cases text with
    | nil => simp at hlen
    | cons x xs =>
      have hx : x = ' ' := by
        have : (x :: xs).take chunkSize = x :: xs.take (chunkSize - 1) := by
          cases chunkSize with
          | zero => omega
          | succ m => simp [List.take_succ_cons]
        rw [this] at hws
        exact (List.cons.injEq _ _ _ _ ▸ hws).1
      rw [hx, List.dropWhile_cons]
      simp only [isPySpace, decide_eq_true_eq]
      rw [if_pos (by simp)]
      calc (xs.dropWhile isPySpace).length ≤ xs.length :=
            (List.dropWhile_sublist _).length_le
        _ < (' ' :: xs).length := by simp

lemma splitTextLoop_mono :
    ∀ {fuel fuel' : Nat} {text : List Char} {chunkSize : Nat} {l : List (List Char)},
      splitTextLoop fuel text chunkSize = some l → fuel ≤ fuel' →
      splitTextLoop fuel' text chunkSize = some l := by
  intro fuel
  induction fuel with
  | zero => intro fuel' text cs l h _; simp [splitTextLoop] at h
  | succ f ih =>
    intro fuel' text cs l h hle
    obtain ⟨f', rfl⟩ : ∃ f', fuel' = f' + 1 := ⟨fuel' - 1, by omega⟩
    have hff : f ≤ f' := by omega
    cases text with
    | nil => simpa [splitTextLoop] using h
    | cons x xs =>
      rw [splitTextLoop] at h ⊢
      by_cases hfit : (x :: xs).length ≤ cs
      · rwa [if_pos hfit] at h ⊢
      · rw [if_neg hfit] at h ⊢
        cases hrec : splitTextLoop f (((x :: xs).drop
            (splitIndexOf ((x :: xs).take cs) cs)).dropWhile isPySpace) cs with
        | some rest => rw [hrec] at h; rw [ih hrec hff]; exact h
        | none => rw [hrec] at h; cases h

lemma splitTextLoop_isSome :
    ∀ (fuel : Nat) (text : List Char) (chunkSize : Nat), 1 ≤ chunkSize →
      text.length < fuel → (splitTextLoop fuel text chunkSize).isSome := by
  intro fuel
  induction fuel with
  | zero => intro text cs _ h; omega
  | succ f ih =>
    intro text cs hcs hlt
    cases text with
    | nil => simp [splitTextLoop]
    | cons x xs =>
      rw [splitTextLoop]
      by_cases hfit : (x :: xs).length ≤ cs
      · rw [if_pos hfit]; rfl
      · rw [if_neg hfit]
        have hlen : cs < (x :: xs).length := by omega
        have hrem := remainder_length_lt hcs hlen
        have := ih (((x :: xs).drop (splitIndexOf ((x :: xs).take cs) cs)).dropWhile
          isPySpace) cs hcs (by omega)
        cases hrec : splitTextLoop f (((x :: xs).drop
            (splitIndexOf ((x :: xs).take cs) cs)).dropWhile isPySpace) cs with
        | some rest => rfl
        | none => rw [hrec] at this; cases this

/-- Unfolding of `split_text` through one loop iteration, valid whenever
the remainder after the cut is nonempty. -/
lemma split_text_step {text : List Char} {chunkSize : Nat}
    (hcs : 1 ≤ chunkSize) (hlen : chunkSize < text.length)
    (hrem : (text.drop (splitIndexOf (text.take chunkSize) chunkSize)).dropWhile
      isPySpace ≠ []) :
    split_text text chunkSize =
      text.take (splitIndexOf (text.take chunkSize) chunkSize) ::
        split_text ((text.drop (splitIndexOf (text.take chunkSize) chunkSize)).dropWhile
          isPySpace) chunkSize := by
  set si := splitIndexOf (text.take chunkSize) chunkSize with hsi
  set rem := (text.drop si).dropWhile isPySpace with hremdef
  have hremlt : rem.length < text.length := remainder_length_lt hcs hlen
  unfold split_text
  rw [if_neg (by omega)]
  have hsome := splitTextLoop_isSome (rem.length + 1) rem chunkSize hcs (by omega)
  obtain ⟨rest, hrest⟩ := Option.isSome_iff_exists.mp hsome
  have hrest' : splitTextLoop text.length rem chunkSize = some rest :=
    splitTextLoop_mono hrest (by omega)
  cases htext : text with
  | nil => subst htext; simp at hlen
  | cons x xs =>
    rw [← htext]
    have hunfold : splitTextLoop (text.length + 1) text chunkSize =
        match splitTextLoop text.length rem chunkSize with
        | some r => some (text.take si :: r)
        | none => none := by
      rw [htext, splitTextLoop]
      rw [if_neg (by rw [← htext]; omega)]
      rw [← htext, ← hsi, ← hremdef]
    rw [hunfold, hrest']
    simp only [Option.getD_some]
    congr 1
    by_cases hfit : rem.length ≤ chunkSize
    · rw [if_pos hfit]
      cases hremc : rem with
      | nil => exact absurd hremc hrem
      | cons r rs =>
        rw [← hremc]
        have : splitTextLoop (rem.length + 1) rem chunkSize = some [rem] := by
          rw [hremc, splitTextLoop, if_pos (by rw [← hremc]; exact hfit)]
        rw [this] at hrest
        cases hrest
        rfl
    · rw [if_neg hfit]
      rw [hrest]
      rfl

/-! ### Chunk-size bound -/

lemma splitTextLoop_chunk_le :
    ∀ {fuel : Nat} {text : List Char} {chunkSize : Nat} {l : List (List Char)},
      splitTextLoop fuel text chunkSize = some l →
      ∀ chunk ∈ l, chunk.length ≤ chunkSize := by
  intro fuel
  induction fuel with
  | zero => intro text cs l h; simp [splitTextLoop] at h
  | succ f ih =>
    intro text cs l h
    cases text with
    | nil =>
      rw [splitTextLoop] at h
      cases h
      intro chunk hc
      simp at hc
    | cons x xs =>
      rw [splitTextLoop] at h
      by_cases hfit : (x :: xs).length ≤ cs
      · rw [if_pos hfit] at h
        cases h
        intro chunk hc
        rw [List.mem_singleton] at hc
        subst hc
        exact hfit
      · rw [if_neg hfit] at h
        cases hrec : splitTextLoop f (((x :: xs).drop
            (splitIndexOf ((x :: xs).take cs) cs)).dropWhile isPySpace) cs with
        | none => rw [hrec] at h; cases h
        | some rest =>
          rw [hrec] at h
          cases h
          intro chunk hc
          rcases List.mem_cons.mp hc with rfl | hmem
          · have hsile : splitIndexOf ((x :: xs).take cs) cs ≤ cs :=
              splitIndexOf_le (List.length_take_le _ _)
            exact Nat.le_trans (List.length_take_le _ _) hsile
          · exact ih hrec chunk hmem

lemma split_text_chunk_le {text : List Char} {chunkSize : Nat} :
    ∀ chunk ∈ split_text text chunkSize, chunk.length ≤ chunkSize := by
  unfold split_text
  by_cases hfit : text.length ≤ chunkSize
  · rw [if_pos hfit]
    intro chunk hc
    rw [List.mem_singleton] at hc
    subst hc
    exact hfit
  · rw [if_neg hfit]
    cases h : splitTextLoop (text.length + 1) text chunkSize with
    | none => simp
    | some l => simpa using splitTextLoop_chunk_le h

/-! ### Reconstruction of the input from the chunks -/

/-- Rejoins chunks, inserting `seps[i]` after `chunks[i]` (a missing
separator inserts nothing). -/
def joinSep : List (List Char) → List (List Char) → List Char
  | [], _ => []
  | chunk :: rest, s :: ss => chunk ++ s ++ joinSep rest ss
  | chunk :: rest, [] => chunk ++ joinSep rest []

lemma splitTextLoop_reconstruct :
    ∀ {fuel : Nat} {text : List Char} {chunkSize : Nat} {l : List (List Char)},
      splitTextLoop fuel text chunkSize = some l →
      ∃ seps : List (List Char),
        (∀ s ∈ seps, ∀ c ∈ s, isPySpace c = true) ∧ joinSep l seps = text := by
  intro fuel
  induction fuel with
  | zero => intro text cs l h; simp [splitTextLoop] at h
  | succ f ih =>
    intro text cs l h
    cases text with
    | nil =>
      rw [splitTextLoop] at h
      cases h
      exact ⟨[], by simp, rfl⟩
    | cons x xs =>
      rw [splitTextLoop] at h
      by_cases hfit : (x :: xs).length ≤ cs
      · rw [if_pos hfit] at h
        cases h
        exact ⟨[], by simp, by simp [joinSep]⟩
      · rw [if_neg hfit] at h
        cases hrec : splitTextLoop f (((x :: xs).drop
            (splitIndexOf ((x :: xs).take cs) cs)).dropWhile isPySpace) cs with
        | none => rw [hrec] at h; cases h
        | some rest =>
          rw [hrec] at h
          cases h
          obtain ⟨seps, hseps, hjoin⟩ := ih hrec
          refine ⟨((x :: xs).drop (splitIndexOf ((x :: xs).take cs) cs)).takeWhile
            isPySpace :: seps, ?_, ?_⟩
          · intro s hs
            rcases List.mem_cons.mp hs with rfl | hmem
            · intro c hc
              exact List.mem_takeWhile_imp hc
            · exact hseps s hmem
          · rw [joinSep, hjoin, List.append_assoc, List.takeWhile_append_dropWhile,
              List.take_append_drop]

lemma split_text_reconstruct {text : List Char} {chunkSize : Nat} (hcs : 1 ≤ chunkSize) :
    ∃ seps : List (List Char),
      (∀ s ∈ seps, ∀ c ∈ s, isPySpace c = true) ∧
        joinSep (split_text text chunkSize) seps = text := by
  unfold split_text
  by_cases hfit : text.length ≤ chunkSize
  · rw [if_pos hfit]
    exact ⟨[], by simp, by simp [joinSep]⟩
  · rw [if_neg hfit]
    have hsome := splitTextLoop_isSome (text.length + 1) text chunkSize hcs (by omega)
    obtain ⟨l, hl⟩ := Option.isSome_iff_exists.mp hsome
    rw [hl]
    simpa using splitTextLoop_reconstruct hl

/-! ### Concrete evaluations of `split_text` at limit 4096 -/

/-- A 4099-character text whose first cut lands after the `.` at position
4095, leaving two spaces that `lstrip` removes, both lost by the split. -/
def doubleSpaceText : List Char := List.replicate 4095 'a' ++ ['.', ' ', ' ', 'b']

lemma doubleSpaceText_take :
    doubleSpaceText.take 4096 = List.replicate 4095 'a' ++ ['.'] := by
  rw [doubleSpaceText, List.take_append_eq_append_take,
    List.take_of_length_le (by simp only [List.length_replicate]; norm_num),
    List.length_replicate, show (4096 - 4095 : Nat) = 1 from by norm_num]
  rfl

lemma doubleSpaceText_splitIndex :
    splitIndexOf (List.replicate 4095 'a' ++ ['.']) 4096 = 4096 := by
  unfold splitIndexOf
  rw [rfindChar_append, show rfindChar ['.'] '.' = some 0 from rfl]
  simp only [List.length_replicate]

lemma doubleSpaceText_split :
    split_text doubleSpaceText 4096 = [List.replicate 4095 'a' ++ ['.'], ['b']] := by
  have hlen : doubleSpaceText.length = 4099 := by
    rw [doubleSpaceText, List.length_append, List.length_replicate]
    norm_num
  have hdrop : doubleSpaceText.drop 4096 = [' ', ' ', 'b'] := by
    rw [doubleSpaceText, List.drop_append_eq_append_drop,
      List.drop_eq_nil_of_le (by simp only [List.length_replicate]; norm_num),
      List.length_replicate, show (4096 - 4095 : Nat) = 1 from by norm_num,
      List.nil_append]
    rfl
  have hrem : (doubleSpaceText.drop
      (splitIndexOf (doubleSpaceText.take 4096) 4096)).dropWhile isPySpace = ['b'] := by
    rw [doubleSpaceText_take, doubleSpaceText_splitIndex, hdrop]
    decide
  rw [split_text_step (by norm_num) (by omega) (by rw [hrem]; simp), hrem,
    doubleSpaceText_take, doubleSpaceText_splitIndex, doubleSpaceText_take,
    show split_text ['b'] 4096 = [['b']] from by decide]

/-- A single 4097-character "token" (no whitespace, no sentence
punctuation) at limit 4096: the splitter hard-cuts it at exactly 4096. -/
lemma longToken_split :
    split_text (List.replicate 4097 'a') 4096 = [List.replicate 4096 'a', ['a']] := by
  have htake : (List.replicate 4097 'a').take 4096 = List.replicate 4096 'a' := by
    rw [List.take_replicate]
    congr 1
  have hsi : splitIndexOf (List.replicate 4096 'a') 4096 = 4096 := by
    unfold splitIndexOf
    rw [rfindChar_replicate_ne (by decide), rfindChar_replicate_ne (by decide),
      rfindChar_replicate_ne (by decide), rfindChar_replicate_ne (by decide),
      rfindChar_replicate_ne (by decide)]
  have hdrop : (List.replicate 4097 'a').drop 4096 = ['a'] := by
    rw [List.drop_replicate, show (4097 - 4096 : Nat) = 1 from by norm_num,
      List.replicate_one]
  have hrem : ((List.replicate 4097 'a').drop
      (splitIndexOf ((List.replicate 4097 'a').take 4096) 4096)).dropWhile
        isPySpace = ['a'] := by
    rw [htake, hsi, hdrop]
    decide
  rw [split_text_step (by norm_num)
      (by simp only [List.length_replicate]; norm_num) (by rw [hrem]; simp), hrem,
    htake, hsi, htake, show split_text ['a'] 4096 = [['a']] from by decide]

/-! ### Claims C2, C3, C10 -/

/-- Formalization of claim C2 as stated: rejoining the chunks of
`split_text`, with at most a single interstitial space at each chunk
boundary (and nothing where no whitespace was trimmed), reconstructs the
input text. -/
def singleSpaceRejoined (text : List Char) (chunkSize : Nat) : Prop :=
  ∃ seps : List (List Char),
    (∀ s ∈ seps, s = [] ∨ s = [' ']) ∧
      joinSep (split_text text chunkSize) seps = text

/-- C2 counterexample: on a 4099-character text whose split boundary trims
two consecutive spaces, no choice of at-most-one-space separators rejoins
the chunks into the original text — `lstrip` discards the whole whitespace
run while the claim reinserts at most one character of it. -/
theorem C2_counterexample : ¬ singleSpaceRejoined doubleSpaceText 4096 := by
  rintro ⟨seps, hseps, hjoin⟩
  rw [doubleSpaceText_split, doubleSpaceText] at hjoin
  cases seps with
  | nil =>
    simp only [joinSep, List.append_nil] at hjoin
    have := congrArg List.length hjoin
    simp only [List.length_append, List.length_replicate, List.length_cons,
      List.length_nil] at this
    omega
  | cons s0 ss =>
    cases ss with
    | nil =>
      rcases hseps s0 (by simp) with rfl | rfl <;>
      · simp only [joinSep, List.append_nil] at hjoin
        have := congrArg List.length hjoin
        simp only [List.length_append, List.length_replicate, List.length_cons,
          List.length_nil] at this
        omega
    | cons s1 rest =>
      have h0 := hseps s0 (by simp)
      have h1 := hseps s1 (by simp)
      rcases h0 with rfl | rfl <;> rcases h1 with rfl | rfl
      · simp only [joinSep, List.append_nil] at hjoin
        have := congrArg List.length hjoin
        simp only [List.length_append, List.length_replicate, List.length_cons,
          List.length_nil] at this
        omega
      · simp only [joinSep, List.append_nil] at hjoin
        have := congrArg List.length hjoin
        simp only [List.length_append, List.length_replicate, List.length_cons,
          List.length_nil] at this
        omega
      · simp only [joinSep, List.append_nil] at hjoin
        have := congrArg List.length hjoin
        simp only [List.length_append, List.length_replicate, List.length_cons,
          List.length_nil] at this
        omega
      · simp only [joinSep, List.append_nil, List.append_assoc, List.cons_append,
          List.nil_append] at hjoin
        have := List.append_cancel_left hjoin
        exact absurd this (by decide)

/-- C2 (amended): for every text and every `chunk_size ≥ 1`, rejoining the
chunks of `split_text` with the *actual* (possibly empty, possibly
multi-character) whitespace run trimmed at each boundary reconstructs the
input exactly; a single space per boundary does not suffice in general. -/
theorem C2_amended_reconstruction (text : List Char) (chunkSize : Nat)
    (hcs : 1 ≤ chunkSize) :
    ∃ seps : List (List Char),
      (∀ s ∈ seps, ∀ c ∈ s, isPySpace c = true) ∧
        joinSep (split_text text chunkSize) seps = text :=
  split_text_reconstruct hcs

/-- C2 witness: the amended reconstruction at a concrete input. -/
theorem C2_witness :
    1 ≤ 4 ∧ ∃ seps : List (List Char),
      (∀ s ∈ seps, ∀ c ∈ s, isPySpace c = true) ∧
        joinSep (split_text "ab.  cd".toList 4) seps = "ab.  cd".toList :=
  ⟨by decide, C2_amended_reconstruction _ 4 (by decide)⟩

/-- C3 (amended): every chunk produced by `split_text` satisfies
`len(chunk) ≤ chunk_size`, unconditionally — a token longer than the limit
is hard-cut at exactly the limit and never yields an oversized chunk. -/
theorem C3_amended_chunk_bound (text : List Char) (chunkSize : Nat) :
    ∀ chunk ∈ split_text text chunkSize, chunk.length ≤ chunkSize :=
  split_text_chunk_le

/-- C3 witness: the amended bound at a concrete input. -/
theorem C3_witness :
    "ab".toList ∈ split_text "ab".toList 4 ∧ ("ab".toList).length ≤ 4 :=
  ⟨by decide, C3_amended_chunk_bound "ab".toList 4 "ab".toList (by decide)⟩

/-- C3 counterexample: a single token of 4097 identical non-space,
non-punctuation characters at limit 4096.  The claim predicts that the
chunk containing the token exceeds the limit; in fact the splitter
hard-cuts at exactly 4096 and every chunk respects the limit (the chunk
lengths are 4096 and 1). -/
theorem C3_counterexample :
    4096 < (List.replicate 4097 'a').length ∧
    ((List.replicate 4097 'a').all fun c =>
      !isPySpace c && !(['.', '?', '!', ';'].contains c)) = true ∧
    (split_text (List.replicate 4097 'a') 4096).map List.length = [4096, 1] := by
  refine ⟨by simp only [List.length_replicate]; norm_num, ?_, ?_⟩
  · rw [List.all_eq_true]
    intro c hc
    rw [List.eq_of_mem_replicate hc]
    decide
  · rw [longToken_split]
    simp only [List.map_cons, List.map_nil, List.length_replicate, List.length_cons,
      List.length_nil]

/-- C10: for every input text and every `chunk_size ≥ 1` the splitting
loop terminates — fuel `len(text) + 1` always suffices — because each
iteration strictly decreases the length of the remaining text (the chosen
split index is at least 1, or it is 0 and the remainder starts with
whitespace that `lstrip` removes). -/
theorem C10_termination (text : List Char) (chunkSize : Nat) (hcs : 1 ≤ chunkSize) :
    (splitTextLoop (text.length + 1) text chunkSize).isSome = true ∧
      (chunkSize < text.length →
        ((text.drop (splitIndexOf (text.take chunkSize) chunkSize)).dropWhile
            isPySpace).length < text.length) :=
  ⟨splitTextLoop_isSome _ _ _ hcs (Nat.lt_succ_self _),
    fun hlen => remainder_length_lt hcs hlen⟩

/-- C10 witness: termination at a concrete input. -/
theorem C10_witness :
    1 ≤ 2 ∧ ((splitTextLoop (("ab cd".toList).length + 1) "ab cd".toList 2).isSome = true ∧
      (2 < ("ab cd".toList).length →
        ((("ab cd".toList).drop (splitIndexOf (("ab cd".toList).take 2) 2)).dropWhile
            isPySpace).length < ("ab cd".toList).length)) :=
  ⟨by decide, C10_termination _ 2 (by decide)⟩

/-! ### Speech request client: retry loop and chunk saving -/

/-- An HTTP response from the speech endpoint: status code and body
bytes.  A scripted list of these stands in for the successive network
responses seen by the retry loop. -/
structure Response where
  status : Nat
  content : List Nat
deriving DecidableEq

/-- Outcome of one `save_chunk` call: the returned boolean, the total
seconds slept in retry backoff, and the bytes written to the chunk file
(`none` when no file was written). -/
structure SaveChunkResult where
  success : Bool
  slept : Nat
  written : Option (List Nat)
deriving DecidableEq

/-- Shared constant `MAX_RETRIES = 3` (`OpenAI_TTS.py` line 13,
`tts.py` line 28). -/
def MAX_RETRIES : Nat := 3

/-- Shared constant `RETRY_DELAY = 5` seconds (`OpenAI_TTS.py` line 14,
`tts.py` line 29). -/
def RETRY_DELAY : Nat := 5

/-- The retryable status class of both retry loops
(`OpenAI_TTS.py` line 131, `tts.py` line 268). -/
def retryableStatuses : List Nat := [429, 500, 502, 503, 504]

/-- The `for attempt in range(MAX_RETRIES)` loop of
`OpenAI_TTS.py::save_chunk` (lines 121-140), recursing over the remaining
attempt indices and the scripted responses.  On 200 with empty body:
Failure without writing; on 200 with content: write and succeed; on a
retryable status: sleep `RETRY_DELAY * (attempt + 1)` and retry; on any
other status: Failure.  Falling out of the loop returns Failure.  (A
scripted-response list shorter than the attempts made is treated as the
loop ending, which no scenario below exercises.) -/
def saveChunkLegacyGo : List Nat → Nat → List Response → SaveChunkResult
  | [], slept, _ => ⟨false, slept, none⟩
  | _ :: _, slept, [] => ⟨false, slept, none⟩
  | attempt :: attempts, slept, r :: rs =>
    if r.status = 200 then
      if r.content.length = 0 then ⟨false, slept, none⟩
      else ⟨true, slept, some r.content⟩
    else if r.status ∈ retryableStatuses then
      saveChunkLegacyGo attempts (slept + RETRY_DELAY * (attempt + 1)) rs
    else ⟨false, slept, none⟩

/-- `OpenAI_TTS.py::save_chunk` (lines 119-140). -/
def saveChunkLegacy (responses : List Response) : SaveChunkResult :=
  saveChunkLegacyGo (List.range MAX_RETRIES) 0 responses

/-- The `for attempt in range(MAX_RETRIES)` loop of
`tts.py::make_api_request` (lines 263-281): returns the first 200 response,
retries the retryable class with delay `RETRY_DELAY * (attempt + 1)`,
returns `None` on any other status, and returns `None` when the attempts
are exhausted. -/
def makeApiRequestGo : List Nat → Nat → List Response → Option Response × Nat
  | [], slept, _ => (none, slept)
  | _ :: _, slept, [] => (none, slept)
  | attempt :: attempts, slept, r :: rs =>
    if r.status = 200 then (some r, slept)
    else if r.status ∈ retryableStatuses then
      makeApiRequestGo attempts (slept + RETRY_DELAY * (attempt + 1)) rs
    else (none, slept)

/-- `tts.py::make_api_request` (lines 241-281). -/
def make_api_request (responses : List Response) : Option Response × Nat :=
  makeApiRequestGo (List.range MAX_RETRIES) 0 responses

/-- `tts.py::save_chunk` (lines 284-330): a single request with no retry
loop; any non-200 status is Failure, and a 200 body is written unchecked
(`response.content` is written even when empty) and reported as success. -/
def save_chunk (r : Response) : Bool × Option (List Nat) :=
  if r.status ≠ 200 then (false, none)
  else (true, some r.content)

/-- A scripted 503 (Service Unavailable) response. -/
def resp503 : Response := ⟨503, [7]⟩

/-- A scripted 200 response with a nonempty audio body. -/
def respOk : Response := ⟨200, [1, 2, 3]⟩

/-! ### Claims C1 and C8 -/

/-- C1 counterexample: for a response sequence of three consecutive
HTTP 503s followed by a 200, the retry loop (which makes at most
`MAX_RETRIES = 3` total attempts) returns Failure after sleeping
`RETRY_DELAY * (1 + 2 + 3) = 30` seconds — it never issues the 4th
attempt on which the claim says it succeeds.  The same holds for
`tts.py::make_api_request`. -/
theorem C1_counterexample :
    saveChunkLegacy [resp503, resp503, resp503, respOk] = ⟨false, 30, none⟩ ∧
    make_api_request [resp503, resp503, resp503, respOk] = (none, 30) := by
  constructor <;> decide

/-- C1 (amended): the chunk-synthesis retry loop makes at most 3 total
attempts, sleeping `RETRY_DELAY * attempt_number` after each transient
failure.  With `k ≤ 2` consecutive retryable responses followed by a 200
with nonempty body it succeeds on attempt `k + 1` having slept
`RETRY_DELAY * (1 + ⋯ + k)`; with 3 consecutive retryable responses it
returns Failure after sleeping `RETRY_DELAY * (1 + 2 + 3)`, never
consuming a 4th response. -/
theorem C1_amended_retry (k : Nat) (hk : k ≤ 2) (rest : List Response) :
    saveChunkLegacy (List.replicate k resp503 ++ respOk :: rest) =
      ⟨true, RETRY_DELAY * (k * (k + 1) / 2), some respOk.content⟩ ∧
    saveChunkLegacy (resp503 :: resp503 :: resp503 :: rest) =
      ⟨false, RETRY_DELAY * 6, none⟩ := by
  constructor
  · interval_cases k <;>
      simp [saveChunkLegacy, saveChunkLegacyGo, MAX_RETRIES, RETRY_DELAY,
        retryableStatuses, resp503, respOk, List.range_succ]
  · simp [saveChunkLegacy, saveChunkLegacyGo, MAX_RETRIES, RETRY_DELAY,
      retryableStatuses, resp503, List.range_succ]

/-- C1 witness: the amended retry behaviour at `k = 2`, `rest = []`. -/
theorem C1_witness :
    2 ≤ 2 ∧
      (saveChunkLegacy (List.replicate 2 resp503 ++ respOk :: []) =
        ⟨true, RETRY_DELAY * (2 * (2 + 1) / 2), some respOk.content⟩ ∧
      saveChunkLegacy (resp503 :: resp503 :: resp503 :: []) =
        ⟨false, RETRY_DELAY * 6, none⟩) :=
  ⟨by decide, C1_amended_retry 2 (by decide) []⟩

/-- C8 counterexample: `tts.py::save_chunk` on a 200 response with a
zero-length body returns True and writes the empty content — it has no
zero-length check. -/
theorem C8_counterexample : save_chunk ⟨200, []⟩ = (true, some []) := by decide

/-- C8 (amended): on HTTP 200 with a zero-length body the legacy
`OpenAI_TTS.py::save_chunk` returns Failure and writes no file (whatever
responses would follow), while the refactored `tts.py::save_chunk` checks
only the status code: it reports success and writes the body unchecked. -/
theorem C8_amended_empty_body (rest : List Response) (content : List Nat) :
    saveChunkLegacy (⟨200, []⟩ :: rest) = ⟨false, 0, none⟩ ∧
    save_chunk ⟨200, content⟩ = (true, some content) := by
  constructor
  · simp [saveChunkLegacy, saveChunkLegacyGo, MAX_RETRIES, List.range_succ]
  · simp [save_chunk]

/-! ### Price estimator -/

/-- Per-block rates in integer thousandths of a dollar:
`TTS_PRICE_PER_1K_CHARS = Decimal("0.015")`,
`TTS_HD_PRICE_PER_1K_CHARS = Decimal("0.030")`. -/
def rateMilli (hd : Bool) : Nat := if hd then 30 else 15

/-- `utils.py::estimate_price` (lines 54-70), in thousandths of a dollar:
zero for zero characters, otherwise `(char_count + 4095) // 4096` blocks
times the rate.  The source's `round(total_price, 3)` is the identity on
every reachable value (an exact multiple of 0.001), so the thousandths
model is exact. -/
def estimate_price (charCount : Nat) (hd : Bool) : Nat :=
  if charCount = 0 then 0
  else ((charCount + 4095) / 4096) * rateMilli hd

/-- `OpenAI_TTS.py::estimate_price` (lines 21-25), in thousandths of a
dollar: block size 1000 via `(char_count + 999) // 1000`, no zero-length
special case. -/
def estimatePriceLegacy (charCount : Nat) (hd : Bool) : Nat :=
  ((charCount + 999) / 1000) * rateMilli hd

/-- Modelled from the spec's words for comparison:
`ceil(char_count / block_size) * rate(hd)` with a true ceiling of the
rational division, in thousandths of a dollar. -/
def estimateSpec (blockSize charCount : Nat) (hd : Bool) : Nat :=
  ⌈(charCount : ℚ) / (blockSize : ℚ)⌉₊ * rateMilli hd

lemma ceil_cast_div (a b : Nat) (hb : 0 < b) :
    ⌈(a : ℚ) / (b : ℚ)⌉₊ = (a + b - 1) / b := by
  have key : ∀ n : Nat, ((a + b - 1) / b ≤ n ↔ ⌈(a : ℚ) / (b : ℚ)⌉₊ ≤ n) := by
    intro n
    rw [Nat.div_le_iff_le_mul_add_pred hb, Nat.ceil_le,
      div_le_iff₀ (by exact_mod_cast hb)]
    constructor
    · intro h
      have h2 : a ≤ b * n := by omega
      have h3 : (a : ℚ) ≤ ((b * n : ℕ) : ℚ) := by exact_mod_cast h2
      push_cast at h3
      linarith
    · intro h
      have h2 : (a : ℚ) ≤ ((b * n : ℕ) : ℚ) := by push_cast; linarith
      have h3 : a ≤ b * n := by exact_mod_cast h2
      omega
  exact Nat.le_antisymm ((key _).1 (Nat.le_refl _)) ((key _).2 (Nat.le_refl _))

/-- C9: both estimators compute `ceil(char_count / block_size) * rate(hd)`
in exact thousandths of a dollar — `utils.py` with block size 4096 and
rates 15/30 milli-dollars, `OpenAI_TTS.py` with block size 1000 and the
same rates — and both return zero for `char_count = 0`, for either value
of `hd`. -/
theorem C9_estimate_price (charCount : Nat) (hd : Bool) :
    estimate_price charCount hd = estimateSpec 4096 charCount hd ∧
    estimatePriceLegacy charCount hd = estimateSpec 1000 charCount hd ∧
    estimate_price 0 hd = 0 ∧ estimatePriceLegacy 0 hd = 0 := by
  refine ⟨?_, ?_, by simp [estimate_price], by simp [estimatePriceLegacy]⟩
  · unfold estimate_price estimateSpec
    rw [ceil_cast_div _ _ (by norm_num)]
    rcases Nat.eq_zero_or_pos charCount with h | h
    · subst h
      norm_num
    · rw [if_neg (by omega)]
      congr 2
  · unfold estimatePriceLegacy estimateSpec
    rw [ceil_cast_div _ _ (by norm_num)]
    congr 2

/-! ### Audio assembler (merge) -/

/-- Observable effects of one merge call: the file renames performed and
the external-tool (ffmpeg) invocations issued, each with its ordered
manifest of input files. -/
structure MergeEffects where
  renames : List (String × String)
  ffmpegManifests : List (List String)
deriving DecidableEq

/-- `utils.py::concatenate_audio_files` (lines 146-210).  `fsExists`
models `os.path.exists`.  A one-element list is renamed to the output
without invoking ffmpeg (lines 154-157); otherwise the concat manifest
lists, in order, those input files that exist on disk (lines 189-193), and
ffmpeg runs once on it — unless the manifest is empty, in which case the
function logs an error and returns without invoking ffmpeg
(lines 194-196). -/
def concatenate_audio_files (fsExists : String → Bool) (fileList : List String)
    (outputFile : String) : MergeEffects :=
  match fileList with
  | [f] => { renames := [(f, outputFile)], ffmpegManifests := [] }
  | _ =>
    let manifest := fileList.filter fsExists
    if manifest.isEmpty then { renames := [], ffmpegManifests := [] }
    else { renames := [], ffmpegManifests := [manifest] }

/-- `OpenAI_TTS.py::concatenate_audio_files` (lines 73-86): writes a
manifest listing every input file (no existence filter and no single-file
special case) and always invokes ffmpeg exactly once on it. -/
def concatenateAudioFilesLegacy (fileList : List String) (_outputFile : String) :
    MergeEffects :=
  { renames := [], ffmpegManifests := [fileList] }

/-! ### Claim C7 -/

/-- C7 counterexample: the `OpenAI_TTS.py` merge (cited by the claim)
given a single chunk file performs no rename and invokes ffmpeg once — the
claim says a single file is renamed without invoking the tool.  Moreover
the `utils.py` merge given two files that do not exist on disk invokes the
tool zero times rather than once with both files. -/
theorem C7_counterexample :
    concatenateAudioFilesLegacy ["chunk_0.mp3"] "out.mp3" =
      { renames := [], ffmpegManifests := [["chunk_0.mp3"]] } ∧
    concatenate_audio_files (fun _ => false) ["a.mp3", "b.mp3"] "out.mp3" =
      { renames := [], ffmpegManifests := [] } := by
  constructor <;> rfl

/-- C7 (amended): for the `utils.py` merge, a one-element list is renamed
to the output path with no tool invocation, and a list of N ≥ 2 files all
of which exist on disk yields exactly one tool invocation whose manifest
lists all N files in their original order; the legacy `OpenAI_TTS.py`
merge instead always invokes the tool exactly once with all files in
order, including for a single file. -/
theorem C7_amended_merge (fsExists : String → Bool) (fileList : List String)
    (outputFile : String) (f : String) :
    concatenate_audio_files fsExists [f] outputFile =
      { renames := [(f, outputFile)], ffmpegManifests := [] } ∧
    (2 ≤ fileList.length → (∀ x ∈ fileList, fsExists x = true) →
      concatenate_audio_files fsExists fileList outputFile =
        { renames := [], ffmpegManifests := [fileList] }) ∧
    concatenateAudioFilesLegacy fileList outputFile =
      { renames := [], ffmpegManifests := [fileList] } := by
  refine ⟨rfl, ?_, rfl⟩
  intro hlen hall
  match fileList with
  | [] => simp at hlen
  | [x] => simp at hlen
  | a :: b :: rest =>
    have hfilter : (a :: b :: rest).filter fsExists = a :: b :: rest :=
      List.filter_eq_self.mpr hall
    unfold concatenate_audio_files
    rw [hfilter]
    rfl

/-- C7 witness: the amended merge behaviour at concrete inputs. -/
theorem C7_witness :
    concatenate_audio_files (fun _ => true) ["a.mp3", "b.mp3"] "out.mp3" =
      { renames := [], ffmpegManifests := [["a.mp3", "b.mp3"]] } ∧
    concatenate_audio_files (fun _ => true) ["c.mp3"] "out.mp3" =
      { renames := [(("c.mp3" : String), ("out.mp3" : String))],
        ffmpegManifests := [] } :=
  ⟨(C7_amended_merge (fun _ => true) ["a.mp3", "b.mp3"] "out.mp3" "c.mp3").2.1
      (by decide) (by decide),
    (C7_amended_merge (fun _ => true) ["a.mp3", "b.mp3"] "out.mp3" "c.mp3").1⟩

/-! ### Playback controller (`audio_player.py::AudioPlayer`) -/

/-- Notifications (Qt signals) emitted by `AudioPlayer`. -/
inductive Notif
  | started
  | paused
  | resumed
  | finished
  | error
  | stateChanged (playing : Bool)
deriving DecidableEq

/-- The mutable flags of `AudioPlayer` (`__init__`, lines 20-26): the two
threading events, the loaded audio buffer (an abstract id, `none` for no
audio) and the `playing` flag. -/
structure Player where
  pauseEvent : Bool
  abortEvent : Bool
  audio : Option Nat
  playing : Bool
deriving DecidableEq

/-- `AudioPlayer.pause` (lines 62-68). -/
def Player.pause (p : Player) : Player × List Notif :=
  if p.playing then
    ({ p with pauseEvent := true, playing := false },
      [.paused, .stateChanged false])
  else (p, [])

/-- `AudioPlayer.resume` (lines 70-76), guarded by
`if not self.playing and self.audio:`. -/
def Player.resume (p : Player) : Player × List Notif :=
  if !p.playing && p.audio.isSome then
    ({ p with pauseEvent := false, playing := true },
      [.resumed, .stateChanged true])
  else (p, [])

/-- `AudioPlayer.abort` (lines 85-90): unconditionally sets the abort
event, clears `playing`, and emits `playback_finished` and
`state_changed(False)`. -/
def Player.abort (p : Player) : Player × List Notif :=
  ({ p with abortEvent := true, playing := false },
    [.finished, .stateChanged false])

/-- The spec's session states (`Idle/Playing/Paused/Aborted`) read off the
player flags: the abort event marks Aborted, otherwise the `playing` flag
marks Playing, otherwise a set pause event with audio loaded marks
Paused. -/
inductive SessionState
  | idle
  | playing
  | paused
  | aborted
deriving DecidableEq

/-- Reads the spec-level session state from the `AudioPlayer` flags. -/
def Player.sessionState (p : Player) : SessionState :=
  if p.abortEvent then .aborted
  else if p.playing then .playing
  else if p.pauseEvent && p.audio.isSome then .paused
  else .idle

/-- `AudioPlayer.play` (lines 28-60) specialised to a run in which the
audio plays to its natural end with no concurrent pause/abort and no
exception: the initialisation (lines 34-40: store audio, clear both
events, set `playing`, emit started and state_changed(True)); one loop
iteration (lines 42-51: the abort event is clear, the pause event is
clear, `playing` holds, so `play(self.audio)` runs to completion, the
abort event is still clear, so `playing` is cleared and
`playback_finished` / `state_changed(False)` are emitted, then `break`);
and the `finally` block (lines 57-60: the abort event is still clear, so
`playback_finished` and `state_changed(False)` are emitted a second
time). -/
def Player.playToCompletion (p : Player) (a : Nat) : Player × List Notif :=
  ({ p with
      audio := some a
      pauseEvent := false
      abortEvent := false
      playing := false },
    [.started, .stateChanged true] ++ [.finished, .stateChanged false]
      ++ [.finished, .stateChanged false])

/-- A player whose session is in the Playing state with audio loaded. -/
def playingPlayer : Player :=
  { pauseEvent := false, abortEvent := false, audio := some 0, playing := true }

/-! ### Claims C5 and C6 -/

/-- C5 counterexample: abort a Playing session, then call `resume()`: the
guard `not self.playing and self.audio` is satisfied after the abort (the
abort clears `playing` but leaves the audio buffer loaded), so `resume()`
sets `playing` back to True and emits resumed / state_changed
notifications — it is not a no-op. -/
theorem C5_counterexample :
    ((playingPlayer.abort).1.resume).2 = [.resumed, .stateChanged true] ∧
    ((playingPlayer.abort).1.resume).1 ≠ (playingPlayer.abort).1 ∧
    ((playingPlayer.abort).1.resume).1.playing = true := by
  refine ⟨rfl, by decide, rfl⟩

/-- C5 (amended): calling `abort()` on a session in the Playing state
transitions it to Aborted and emits exactly one finished notification
(with its paired state_changed), but a subsequent `resume()` call is NOT a
no-op whenever audio is still loaded: it sets the playing flag and emits
a resumed notification. -/
theorem C5_amended_abort (p : Player) (_hplay : p.playing = true)
    (haudio : p.audio.isSome = true) :
    (p.abort).1.sessionState = .aborted ∧
    (p.abort).2 = [.finished, .stateChanged false] ∧
    ((p.abort).1.resume).2 = [.resumed, .stateChanged true] ∧
    ((p.abort).1.resume).1.playing = true := by
  refine ⟨by simp [Player.abort, Player.sessionState], rfl, ?_, ?_⟩
  · simp [Player.abort, Player.resume, haudio]
  · simp [Player.abort, Player.resume, haudio]

/-- C5 witness: the amended abort behaviour at a concrete Playing
session. -/
theorem C5_witness :
    playingPlayer.playing = true ∧ playingPlayer.audio.isSome = true ∧
    ((playingPlayer.abort).1.sessionState = .aborted ∧
      (playingPlayer.abort).2 = [.finished, .stateChanged false] ∧
      ((playingPlayer.abort).1.resume).2 = [.resumed, .stateChanged true] ∧
      ((playingPlayer.abort).1.resume).1.playing = true) :=
  ⟨rfl, rfl, C5_amended_abort playingPlayer rfl rfl⟩

/-- C6: a playback session that completes naturally (abort never
requested) emits the `playback_finished` notification TWICE — once from
the loop body (line 48) and once from the `finally` block (line 59), whose
guard checks only the abort event — whereas the claim (and the spec)
require exactly one completion notification.  The code contradicts the
single-notification contract: this is the code bug. -/
theorem C6_double_finished (p : Player) (a : Nat) :
    (p.playToCompletion a).2 =
      [.started, .stateChanged true, .finished, .stateChanged false,
        .finished, .stateChanged false] ∧
    (p.playToCompletion a).2.count .finished = 2 := by
  constructor <;> rfl

/-! ### Progress reporting (`tts.py::create_tts` / `process_tts`) -/

/-- The `for i, chunk in enumerate(chunks)` loop of `tts.py::process_tts`
(lines 213-228) followed by the merge (lines 230-232), modelled by its
progress emissions: before chunk `i` is attempted, `(i / total_chunks) *
100` is emitted (lines 214-215); a failed `save_chunk` ends the run with
no further emission (lines 225-228); after the loop the chunk files are
merged and a final 100 is emitted (lines 231-232).  `results` scripts the
success of each chunk's `save_chunk` call; progress values are modelled as
exact rationals; the boolean records whether the run reached the merge. -/
def processTTSGo (total : ℚ) : Nat → List Bool → List ℚ × Bool
  | _, [] => ([100], true)
  | i, ok :: rest =>
    if ok then
      ((i : ℚ) / total * 100 :: (processTTSGo total (i + 1) rest).1,
        (processTTSGo total (i + 1) rest).2)
    else ([(i : ℚ) / total * 100], false)

/-- `tts.py::process_tts` (lines 189-238): the progress emissions of one
worker run, with `total_chunks = len(chunks)`. -/
def process_tts (results : List Bool) : List ℚ × Bool :=
  processTTSGo (results.length : ℚ) 0 results

/-- `tts.py::create_tts` (lines 38-124), non-streaming path after the user
confirms: the full per-request progress sequence is the 1 emitted on line
92 (`Set progress to 1% when starting`) followed by the worker thread's
`process_tts` emissions. -/
def create_tts (results : List Bool) : List ℚ :=
  1 :: (process_tts results).1

/-- The progress value `(i / total) * 100` emitted for chunk index `i`. -/
def progressValue (total : ℚ) (j : Nat) : ℚ := (j : ℚ) / total * 100

lemma processTTSGo_all_true (total : ℚ) :
    ∀ (rs : List Bool) (i : Nat), (∀ r ∈ rs, r = true) →
      processTTSGo total i rs =
        (((List.range' i rs.length).map (progressValue total)) ++ [100], true) := by
  intro rs
  induction rs with
  | nil => intro i _; simp [processTTSGo]
  | cons b bs ih =>
    intro i hall
    have hb : b = true := hall b (by simp)
    subst hb
    rw [processTTSGo, if_pos rfl, ih (i + 1) (fun r hr => hall r (by simp [hr])),
      List.length_cons, List.range'_succ, List.map_cons, List.cons_append]
    rfl

lemma chain_progress (n : Nat) (hn : 0 < n) :
    ∀ (k i : Nat), i + k ≤ n →
      List.Chain' (· ≤ ·)
        (((List.range' i k).map (progressValue (n : ℚ))) ++ [100]) := by
  have hn' : (0 : ℚ) < (n : ℚ) := by exact_mod_cast hn
  intro k
  induction k with
  | zero => intro i _; simp
  | succ m ih =>
    intro i hik
    rw [List.range'_succ, List.map_cons, List.cons_append, List.chain'_cons']
    constructor
    · intro b hb
      cases m with
      | zero =>
        simp only [List.range'_zero, List.map_nil, List.nil_append,
          List.head?_cons, Option.mem_def, Option.some.injEq] at hb
        subst hb
        have hi : (i : ℚ) ≤ (n : ℚ) := by exact_mod_cast (by omega : i ≤ n)
        have h1 : (i : ℚ) / (n : ℚ) ≤ 1 := (div_le_one hn').mpr hi
        unfold progressValue
        nlinarith
      | succ m' =>
        rw [List.range'_succ, List.map_cons, List.cons_append, List.head?_cons,
          Option.mem_def, Option.some.injEq] at hb
        subst hb
        unfold progressValue
        have hle : (i : ℚ) ≤ ((i + 1 : ℕ) : ℚ) := by push_cast; linarith
        have hstep : (i : ℚ) / (n : ℚ) ≤ ((i + 1 : ℕ) : ℚ) / (n : ℚ) := by gcongr
        nlinarith
    · exact ih (i + 1) (by omega)

lemma count_progress (n : Nat) (hn : 0 < n) (k i : Nat) (hik : i + k ≤ n) :
    (((List.range' i k).map (progressValue (n : ℚ))) ++ [100]).count 100 = 1 := by
  have hn' : (0 : ℚ) < (n : ℚ) := by exact_mod_cast hn
  rw [List.count_append]
  have hzero : ((List.range' i k).map (progressValue (n : ℚ))).count 100 = 0 := by
    rw [List.count_eq_zero]
    intro hmem
    rw [List.mem_map] at hmem
    obtain ⟨j, hj, hval⟩ := hmem
    rw [List.mem_range'_1] at hj
    have hjn : (j : ℚ) < (n : ℚ) := by exact_mod_cast (by omega : j < n)
    have hlt : (j : ℚ) / (n : ℚ) < 1 := (div_lt_one hn').mpr hjn
    have hlt2 : progressValue (n : ℚ) j < 100 := by unfold progressValue; nlinarith
    rw [hval] at hlt2
    exact absurd hlt2 (by norm_num)
  rw [hzero]
  simp

/-! ### Claim C4 -/

/-- C4 counterexample: an all-success 2-chunk request emits the sequence
[1, 0, 50, 100] — the 1% emitted by `create_tts` before the worker starts
is followed by `process_tts`'s `(0 / 2) * 100 = 0`, so the notification
sequence neither starts at 0 nor is monotonically non-decreasing. -/
theorem C4_counterexample :
    create_tts [true, true] = [1, 0, 50, 100] ∧
    (create_tts [true, true]).head? ≠ some 0 ∧
    ¬ (create_tts [true, true]).Chain' (· ≤ ·) := by
  have h : create_tts [true, true] = [1, 0, 50, 100] := by
    unfold create_tts process_tts
    norm_num [processTTSGo]
  refine ⟨h, by rw [h]; norm_num, by rw [h]; norm_num [List.chain'_cons]⟩

/-- C4 (amended): for a multi-chunk request whose chunks all succeed, the
worker's own emissions are exactly `(i / total) * 100` for `i = 0, …,
total - 1` — each emitted when `i` chunks have completed, i.e. just before
chunk `i + 1` is attempted rather than just after chunk `i` finishes —
followed by a single final 100 after the merge; this worker sequence
starts at 0, is monotonically non-decreasing and contains 100 exactly
once.  The full per-request sequence, however, is prefixed by the 1%
emitted by `create_tts` on the GUI thread, so it starts at 1 (not 0) and
is not monotonically non-decreasing. -/
theorem C4_amended_progress (results : List Bool)
    (hall : ∀ r ∈ results, r = true) (h2 : 2 ≤ results.length) :
    process_tts results =
      (((List.range' 0 results.length).map
          (progressValue (results.length : ℚ))) ++ [100], true) ∧
    (process_tts results).1.head? = some 0 ∧
    (process_tts results).1.Chain' (· ≤ ·) ∧
    (process_tts results).1.count 100 = 1 ∧
    create_tts results = 1 :: (process_tts results).1 := by
  have hn : 0 < results.length := by omega
  have hform : process_tts results =
      (((List.range' 0 results.length).map
          (progressValue (results.length : ℚ))) ++ [100], true) := by
    unfold process_tts
    exact processTTSGo_all_true _ results 0 hall
  have htrace : (process_tts results).1 =
      ((List.range' 0 results.length).map
        (progressValue (results.length : ℚ))) ++ [100] := by
    rw [hform]
  refine ⟨hform, ?_, ?_, ?_, rfl⟩
  · rw [htrace]
    obtain ⟨m, hm⟩ : ∃ m, results.length = m + 1 := ⟨results.length - 1, by omega⟩
    rw [hm, List.range'_succ, List.map_cons, List.cons_append, List.head?_cons]
    unfold progressValue
    norm_num
  · rw [htrace]
    exact chain_progress results.length hn results.length 0 (by omega)
  · rw [htrace]
    exact count_progress results.length hn results.length 0 (by omega)

/-- C4 witness: the amended progress behaviour at a concrete 2-chunk
all-success run. -/
theorem C4_witness :
    (∀ r ∈ [true, true], r = true) ∧ 2 ≤ ([true, true] : List Bool).length ∧
    (process_tts [true, true] =
      (((List.range' 0 ([true, true] : List Bool).length).map
          (progressValue (([true, true] : List Bool).length : ℚ))) ++ [100],
        true) ∧
    (process_tts [true, true]).1.head? = some 0 ∧
    (process_tts [true, true]).1.Chain' (· ≤ ·) ∧
    (process_tts [true, true]).1.count 100 = 1 ∧
    create_tts [true, true] = 1 :: (process_tts [true, true]).1) :=
  ⟨by decide, by decide, C4_amended_progress [true, true] (by decide) (by decide)⟩
